import Mathlib

/-!
Verification development for the retrieval engine of the workshop repository
(`mcp-fixer-api/app/rag.py` and the shared RAG section of
`genai-hands-on-session3.py`).

The embedding translates the Python source:
* `pyIsSpace` models Python's whitespace class (`str.isspace` / regex `\s`);
* `sepScan` / `matchSep` / `splitAux` model the greedy, leftmost behaviour of
  `re.split(r'\n\s*\n', ...)`;
* `chunker` models `re.split(r'\n\s*\n', corpus.strip())`;
* `mdFiles` / `loadFiles` model `KnowledgeBase._load_files`;
* `buildKB` models the chunk list produced by `KnowledgeBase._load`;
* `search` models the external `faiss.IndexFlatL2` collaborator from the
  specification (the library itself is not part of the repository);
* `retrieve` models `KnowledgeBase.retrieve`;
* `get_kb` / `get_kbE` model the module-level registry `get_kb`.

Embedding vectors are represented over `ℚ` instead of machine floats; the
specified contract (squared-L2 ordering, determinism) does not depend on
floating-point representation.
-/

/-- Characters matched by Python's `\s` regex class (and stripped by
`str.strip()`): ASCII whitespace plus the Unicode whitespace code points. -/
def pyIsSpace (c : Char) : Bool :=
  c ∈ [' ', '\t', '\n', '\r', '\x0b', '\x0c',
       '\x1c', '\x1d', '\x1e', '\x1f', '\x85', '\xa0',
       ' ', ' ', ' ', ' ', ' ', ' ', ' ',
       ' ', ' ', ' ', ' ', ' ',
       ' ', ' ', ' ', ' ', '　']

/-- Drop leading Python whitespace. -/
def dropWs (l : List Char) : List Char := l.dropWhile pyIsSpace

/-- Python's `str.strip()`: remove leading and trailing whitespace. -/
def pyStrip (l : List Char) : List Char := dropWs ((dropWs l.reverse).reverse)

/-- Greedy match of the regex fragment `\s*\n` against a prefix of `l`,
returning the remainder after the match.  The recursion first tries to extend
the match (greedy `\s*`), and on failure falls back to ending the match at the
current newline; this reproduces Python's backtracking behaviour. -/
def sepScan : List Char → Option (List Char)
  | [] => none
  | c :: cs =>
    if pyIsSpace c then
      match sepScan cs with
      | some rem => some rem
      | none => if c = '\n' then some cs else none
    else none

/-- Greedy match of the full separator regex `\n\s*\n` against a prefix of
`l`, returning the remainder after the match. -/
def matchSep : List Char → Option (List Char)
  | [] => none
  | c :: rest => if c = '\n' then sepScan rest else none

/-- Fuelled worker of the model of `re.split(r'\n\s*\n', s)`: scan `l` left
to right, accumulating the current chunk (reversed) in `acc`; emit a chunk at
each leftmost separator match.  The fuel only bounds the recursion; it is
supplied as `l.length`, which suffices because every match consumes at least
one character. -/
def splitAuxF : ℕ → List Char → List Char → List String
  | _, [], acc => [acc.reverse.asString]
  | 0, c :: rest, acc => [(acc.reverse ++ c :: rest).asString]
  | n + 1, c :: rest, acc =>
    match matchSep (c :: rest) with
    | some rem => acc.reverse.asString :: splitAuxF n rem []
    | none => splitAuxF n rest (c :: acc)

/-- The scanning worker at its canonical fuel. -/
def splitAux (l : List Char) (acc : List Char) : List String :=
  splitAuxF l.length l acc

/-- Model of `re.split(r'\n\s*\n', s.strip())`, the chunking step shared by
`KnowledgeBase._load` and the workshop notebook. -/
def chunker (s : String) : List String := splitAux (pyStrip s.data) []

/-- `l` contains no occurrence of the separator regex `\n\s*\n`. -/
def sepFreeB : List Char → Bool
  | [] => true
  | c :: cs => (matchSep (c :: cs)).isNone && sepFreeB cs

/-- Lexicographic comparison of character lists by code point, the ordering
Python uses to compare strings (and hence the order of `sorted(...)` over
filenames). -/
def lexLe : List Char → List Char → Bool
  | [], _ => true
  | _ :: _, [] => false
  | a :: as, b :: bs => if a = b then lexLe as bs else decide (a < b)

theorem lexLe_total : ∀ x y : List Char, lexLe x y || lexLe y x
  | [], _ => by simp [lexLe]
  | _ :: _, [] => by simp [lexLe]
  | a :: as, b :: bs => by
    by_cases hab : a = b
    · subst hab
      simpa [lexLe] using lexLe_total as bs
    · have := lt_or_gt_of_ne hab
      rcases this with h | h
      · simp [lexLe, hab, h]
      · simp [lexLe, hab, Ne.symm hab, not_lt_of_gt h, h]

theorem lexLe_trans : ∀ {x y z : List Char},
    lexLe x y = true → lexLe y z = true → lexLe x z = true
  | [], _, _, _, _ => by simp [lexLe]
  | _ :: _, [], _, h, _ => by simp [lexLe] at h
  | _ :: _, _ :: _, [], _, h => by simp [lexLe] at h
  | a :: as, b :: bs, c :: cs, h1, h2 => by
    by_cases hab : a = b <;> by_cases hbc : b = c
    · subst hab; subst hbc
      rw [lexLe, if_pos rfl] at h1 h2 ⊢
      exact lexLe_trans h1 h2
    · subst hab
      rw [lexLe, if_neg hbc] at h2 ⊢
      exact h2
    · subst hbc
      rw [lexLe, if_neg hab] at h1 ⊢
      exact h1
    · rw [lexLe, if_neg hab] at h1
      rw [lexLe, if_neg hbc] at h2
      have hac : a < c := lt_trans (of_decide_eq_true h1) (of_decide_eq_true h2)
      rw [lexLe, if_neg (ne_of_lt hac)]
      exact decide_eq_true hac

/-- Ordering of directory entries by filename, as used by Python's
`sorted(...)` over the names returned by `os.listdir`.  Entries are
`(filename, content)` pairs; the model of a directory is such a list. -/
def fileLe (a b : String × String) : Prop := lexLe a.1.data b.1.data = true

instance : DecidableRel fileLe := fun a b =>
  inferInstanceAs (Decidable (lexLe a.1.data b.1.data = true))

instance : IsTotal (String × String) fileLe := by
  constructor
  intro a b
  have := lexLe_total a.1.data b.1.data
  rcases Bool.or_eq_true_iff.mp this with h | h
  · exact Or.inl h
  · exact Or.inr h

instance : IsTrans (String × String) fileLe :=
  ⟨fun _ _ _ h1 h2 => lexLe_trans h1 h2⟩

/-- Model of `sorted([f for f in os.listdir(self.kb_dir) if f.endswith(".md")])`
from `KnowledgeBase._load_files`: keep the `.md` entries of the directory and
sort them by filename. -/
def mdFiles (dir : List (String × String)) : List (String × String) :=
  List.insertionSort fileLe
    (dir.filter (fun p => List.isSuffixOf ['.', 'm', 'd'] p.1.data))

/-- The provenance tag `f"\n\n# Source: {f}\n\n"` prepended to each document's
content in `KnowledgeBase._load_files`. -/
def sourceHeader (f : String) : String := "\n\n# Source: " ++ f ++ "\n\n"

/-- Model of `KnowledgeBase._load_files`: fold the sorted eligible documents
into one corpus string, each preceded by its provenance header. -/
def loadFiles (dir : List (String × String)) : String :=
  (mdFiles dir).foldl (fun corpus p => corpus ++ sourceHeader p.1 ++ p.2) ""

/-- Model of the chunk list computed by `KnowledgeBase._load`:
`re.split(r'\n\s*\n', corpus.strip())` over the loaded corpus. -/
def buildKB (dir : List (String × String)) : List String :=
  chunker (loadFiles dir)

/-- Squared L2 distance between two vectors, the metric of the flat index. -/
def sqL2 (u v : List ℚ) : ℚ :=
  (List.zipWith (fun a b => (a - b) * (a - b)) u v).sum

/-- Comparison used to order search results: ascending squared distance,
ties broken by ascending stored index. -/
def distLe (a b : ℕ × ℚ) : Prop :=
  a.2 < b.2 ∨ (a.2 = b.2 ∧ a.1 ≤ b.1)

instance : DecidableRel distLe := fun a b => by
  unfold distLe; infer_instance

instance : IsTotal (ℕ × ℚ) distLe := by
  constructor
  intro a b
  rcases lt_trichotomy a.2 b.2 with h | h | h
  · exact Or.inl (Or.inl h)
  · rcases Nat.le_total a.1 b.1 with h1 | h1
    · exact Or.inl (Or.inr ⟨h, h1⟩)
    · exact Or.inr (Or.inr ⟨h.symm, h1⟩)
  · exact Or.inr (Or.inl h)

instance : IsTrans (ℕ × ℚ) distLe := by
  constructor
  intro a b c h1 h2
  rcases h1 with h1 | ⟨h1e, h1i⟩
  · rcases h2 with h2 | ⟨h2e, _⟩
    · exact Or.inl (lt_trans h1 h2)
    · exact Or.inl (h2e ▸ h1)
  · rcases h2 with h2 | ⟨h2e, h2i⟩
    · exact Or.inl (h1e ▸ h2)
    · exact Or.inr ⟨h1e.trans h2e, le_trans h1i h2i⟩

/-- All stored vectors paired with their index and squared distance to `q`. -/
def scored (index : List (List ℚ)) (q : List ℚ) : List (ℕ × ℚ) :=
  (List.range index.length).map (fun i => (i, sqL2 q (index.getD i [])))

/-- Modelled from the spec: the `faiss.IndexFlatL2.search` call used by
`KnowledgeBase.retrieve` is an external native library whose code is not part
of this repository; per §4.3 of the specification it performs a brute-force
scan of all stored vectors and returns the `min(k, indexSize)` entries of
smallest squared L2 distance, sorted ascending, ties broken by ascending
stored index. -/
def search (index : List (List ℚ)) (q : List ℚ) (k : ℕ) : List (ℕ × ℚ) :=
  (List.insertionSort distLe (scored index q)).take k

/-- A constructed knowledge base: the parallel chunk list and vector index
built by `KnowledgeBase._load`, together with the (external, deterministic)
sentence-embedding function. -/
structure KnowledgeBase where
  chunks : List String
  index : List (List ℚ)
  encode : String → List ℚ

/-- Python's `"\n\n".join(...)`. -/
def joinBlank : List String → String
  | [] => ""
  | [p] => p
  | p :: q :: ps => p ++ "\n\n" ++ joinBlank (q :: ps)

/-- Removal of every occurrence of a character, the semantics of Python's
`str.replace(ch, '')` for a single-character pattern. -/
def removeChar (c : Char) (s : String) : String :=
  (s.data.filter (fun d => d != c)).asString

/-- The chunk texts selected by a retrieval, in search-result order:
`[self._chunks[i] for i in idx[0]]`. -/
def retrievedTexts (kb : KnowledgeBase) (query : String) (k : ℕ) : List String :=
  (search kb.index (kb.encode query) k).map (fun p => kb.chunks.getD p.1 "")

/-- Model of `KnowledgeBase.retrieve`: embed the query, search the index,
join the selected chunk texts with a blank line, and strip zero-width-space
and byte-order-mark characters. -/
def retrieve (kb : KnowledgeBase) (query : String) (k : ℕ) : String :=
  removeChar '\uFEFF' (removeChar '\u200B' (joinBlank (retrievedTexts kb query k)))

/-- Model of the registry `get_kb` over the module-level dict `_kb_cache`,
with explicit state passing: returns the knowledge base, the updated cache,
and the number of constructions performed by this call. -/
def get_kb {α : Type} (build : String → α) (cache : List (String × α))
    (loc : String) : α × List (String × α) × ℕ :=
  match cache.lookup loc with
  | some kb => (kb, cache, 0)
  | none => (build loc, (loc, build loc) :: cache, 1)

/-- Model of `get_kb` when construction can fail: in Python, an exception in
`KnowledgeBase(kb_dir)` propagates before the assignment
`_kb_cache[kb_dir] = ...` executes, so the cache is left untouched. -/
def get_kbE {ε α : Type} (build : String → Except ε α)
    (cache : List (String × α)) (loc : String) :
    Except ε α × List (String × α) × ℕ :=
  match cache.lookup loc with
  | some kb => (Except.ok kb, cache, 0)
  | none =>
    match build loc with
    | Except.ok kb => (Except.ok kb, (loc, kb) :: cache, 1)
    | Except.error e => (Except.error e, cache, 1)

/-! Helper lemmas about Python whitespace scanning. -/

/-- Trailing-whitespace removal (Python's `str.rstrip()`). -/
def rdropWs (l : List Char) : List Char := (dropWs l.reverse).reverse

/-- The remainder left after the separator match that begins at a `"\n\n"`
junction followed by `v`: the greedy `\s*` continues into `v` and the match
ends at the last newline of the whitespace run. -/
def junctionRem (v : List Char) : List Char := (sepScan v).getD v

/-- A paragraph in the sense of the chunking contract: non-empty, not starting
or ending with whitespace, and containing no blank-line separator. -/
def goodPara (p : String) : Bool :=
  !p.data.isEmpty &&
  (p.data.head?.all fun c => !pyIsSpace c) &&
  (p.data.getLast?.all fun c => !pyIsSpace c) &&
  sepFreeB p.data

/-- Knowledge base used by the concrete witnesses: two chunks with parallel
one-dimensional vectors and a constant embedder. -/
def kbWitness : KnowledgeBase :=
  ⟨["alpha", "beta"], [[0], [1]], fun _ => [0]⟩

/-- Second knowledge base for the determinism witness: same chunks and index,
and an embedder that agrees with `kbWitness`'s on the query `"q"` only. -/
def kbWitness2 : KnowledgeBase :=
  ⟨["alpha", "beta"], [[0], [1]], fun s => if s = "q" then [0] else [7]⟩

theorem sepScan_length : ∀ {l rem : List Char}, sepScan l = some rem →
    rem.length < l.length
  | [], _, h => by simp [sepScan] at h
  | c :: cs, rem, h => by
    by_cases hws : pyIsSpace c
    · rw [sepScan, if_pos hws] at h
      cases hsc : sepScan cs with
      | some r =>
        rw [hsc] at h
        cases h
        exact Nat.lt_trans (sepScan_length hsc) (Nat.lt_succ_self _)
      | none =>
        rw [hsc] at h
        by_cases hnl : c = '\n'
        · rw [if_pos hnl] at h
          cases h
          exact Nat.lt_succ_self _
        · rw [if_neg hnl] at h
          cases h
    · rw [sepScan, if_neg hws] at h
      cases h

theorem matchSep_length {l rem : List Char} (h : matchSep l = some rem) :
    rem.length < l.length := by
  match l with
  | [] => simp [matchSep] at h
  | c :: cs =>
    rw [matchSep] at h
    by_cases hc : c = '\n'
    · rw [if_pos hc] at h
      exact Nat.lt_trans (sepScan_length h) (Nat.lt_succ_self _)
    · rw [if_neg hc] at h
      cases h

theorem splitAuxF_fuel : ∀ {n : ℕ} {l : List Char} (acc : List Char),
    l.length ≤ n → splitAuxF n l acc = splitAux l acc
  | _, [], acc, _ => by
    cases ‹ℕ› <;> rfl
  | 0, c :: rest, _, h => by simp at h
  | n + 1, c :: rest, acc, h => by
    rw [splitAux]
    cases hm : matchSep (c :: rest) with
    | some rem =>
      have h1 : rem.length ≤ n :=
        Nat.lt_succ_iff.mp (Nat.lt_of_lt_of_le (matchSep_length hm) h)
      have h2 : rem.length ≤ rest.length :=
        Nat.lt_succ_iff.mp (matchSep_length hm)
      simp only [List.length_cons, splitAuxF, hm]
      rw [splitAuxF_fuel [] h1, splitAuxF_fuel [] h2]
    | none =>
      have h1 : rest.length ≤ n := by simpa using h
      simp only [List.length_cons, splitAuxF, hm]
      rw [splitAuxF_fuel (c :: acc) h1, splitAuxF_fuel (c :: acc) le_rfl]

theorem splitAux_nil (acc : List Char) :
    splitAux [] acc = [acc.reverse.asString] := rfl

theorem splitAux_cons_some {c : Char} {rest rem acc : List Char}
    (h : matchSep (c :: rest) = some rem) :
    splitAux (c :: rest) acc = acc.reverse.asString :: splitAux rem [] := by
  rw [splitAux]
  simp only [List.length_cons, splitAuxF, h]
  rw [splitAuxF_fuel [] (Nat.lt_succ_iff.mp (matchSep_length h))]

theorem splitAux_cons_none {c : Char} {rest acc : List Char}
    (h : matchSep (c :: rest) = none) :
    splitAux (c :: rest) acc = splitAux rest (c :: acc) := by
  rw [splitAux]
  simp only [List.length_cons, splitAuxF, h]
  exact splitAuxF_fuel (c :: acc) le_rfl

theorem getLastMem : ∀ {l : List Char} {d : Char}, l.getLast? = some d → d ∈ l
  | [a], d, h => by
    cases h
    exact List.mem_singleton_self a
  | a :: b :: t, d, h => by
    rw [List.getLast?_cons_cons] at h
    exact List.mem_cons_of_mem a (getLastMem h)

theorem getLastTail {a : Char} {l : List Char} (h : l ≠ []) :
    (a :: l).getLast? = l.getLast? := by
  cases l with
  | nil => exact absurd rfl h
  | cons b t => rw [List.getLast?_cons_cons]

theorem takeWhile_append_stop {p : Char → Bool} :
    ∀ {l : List Char} (z : List Char), (∃ c ∈ l, p c = false) →
      (l ++ z).takeWhile p = l.takeWhile p
  | [], _, h => by simp at h
  | a :: l, z, h => by
    by_cases ha : p a = true
    · have h' : ∃ c ∈ l, p c = false := by
        rcases h with ⟨c, hc, hcp⟩
        rcases List.mem_cons.mp hc with rfl | hc
        · rw [ha] at hcp; cases hcp
        · exact ⟨c, hc, hcp⟩
      simp only [List.cons_append, List.takeWhile_cons, ha]
      rw [takeWhile_append_stop z h']
    · simp [List.takeWhile_cons, ha]

theorem dropWhile_append_stop {p : Char → Bool} :
    ∀ {l : List Char} (z : List Char), (∃ c ∈ l, p c = false) →
      (l ++ z).dropWhile p = l.dropWhile p ++ z
  | [], _, h => by simp at h
  | a :: l, z, h => by
    by_cases ha : p a = true
    · have h' : ∃ c ∈ l, p c = false := by
        rcases h with ⟨c, hc, hcp⟩
        rcases List.mem_cons.mp hc with rfl | hc
        · rw [ha] at hcp; cases hcp
        · exact ⟨c, hc, hcp⟩
      simp only [List.cons_append, List.dropWhile_cons, ha, if_true]
      rw [dropWhile_append_stop z h']
    · simp [List.dropWhile_cons, ha]

theorem dropWhile_append_all {p : Char → Bool} :
    ∀ {l : List Char} (z : List Char), (∀ c ∈ l, p c = true) →
      (l ++ z).dropWhile p = z.dropWhile p
  | [], _, _ => rfl
  | a :: l, z, h => by
    have ha : p a = true := h a (List.mem_cons_self a l)
    simp only [List.cons_append, List.dropWhile_cons, ha, if_true]
    exact dropWhile_append_all z (fun c hc => h c (List.mem_cons_of_mem a hc))

theorem pyStrip_eq (l : List Char) : pyStrip l = dropWs (rdropWs l) := rfl

theorem rdropWs_append_nonws {B : List Char} (X : List Char)
    (h : ∃ c ∈ B, pyIsSpace c = false) : rdropWs (X ++ B) = X ++ rdropWs B := by
  unfold rdropWs dropWs
  rw [List.reverse_append,
    dropWhile_append_stop X.reverse
      (by rcases h with ⟨c, hc, hcp⟩; exact ⟨c, List.mem_reverse.mpr hc, hcp⟩),
    List.reverse_append, List.reverse_reverse]

theorem rdropWs_append_allws {B : List Char} (X : List Char)
    (h : ∀ c ∈ B, pyIsSpace c = true) : rdropWs (X ++ B) = rdropWs X := by
  unfold rdropWs dropWs
  rw [List.reverse_append,
    dropWhile_append_all X.reverse (fun c hc => h c (List.mem_reverse.mp hc))]

theorem rdropWs_of_getLast {l : List Char} {d : Char} (h : l.getLast? = some d)
    (hd : pyIsSpace d = false) : rdropWs l = l := by
  unfold rdropWs dropWs
  have hh : l.reverse.head? = some d := by rw [List.head?_reverse]; exact h
  cases hr : l.reverse with
  | nil => rw [hr] at hh; cases hh
  | cons a t =>
    rw [hr] at hh
    cases hh
    rw [List.dropWhile_cons, if_neg (by simp [hd])]
    rw [← hr, List.reverse_reverse]

theorem dropWs_of_head {l : List Char} {d : Char} (h : l.head? = some d)
    (hd : pyIsSpace d = false) : dropWs l = l := by
  cases l with
  | nil => rfl
  | cons a t =>
    cases h
    rw [dropWs, List.dropWhile_cons, if_neg (by simp [hd])]

theorem sepScan_none_noNL : ∀ {l : List Char}, sepScan l = none →
    '\n' ∉ l.takeWhile pyIsSpace
  | [], _ => by simp
  | c :: cs, h => by
    by_cases hws : pyIsSpace c = true
    · rw [sepScan, if_pos hws] at h
      cases hsc : sepScan cs with
      | some r => rw [hsc] at h; cases h
      | none =>
        rw [hsc] at h
        by_cases hnl : c = '\n'
        · rw [if_pos hnl] at h; cases h
        · intro hmem
          rw [List.takeWhile_cons, if_pos hws] at hmem
          rcases List.mem_cons.mp hmem with heq | hmem
          · exact hnl heq.symm
          · exact sepScan_none_noNL hsc hmem
    · intro hmem
      rw [List.takeWhile_cons, if_neg hws] at hmem
      cases hmem

theorem sepScan_structure : ∀ {l rem : List Char}, sepScan l = some rem →
    ∃ w, l = w ++ '\n' :: rem ∧ (∀ c ∈ w, pyIsSpace c = true) ∧
      '\n' ∉ rem.takeWhile pyIsSpace
  | [], _, h => by simp [sepScan] at h
  | c :: cs, rem, h => by
    by_cases hws : pyIsSpace c = true
    · rw [sepScan, if_pos hws] at h
      cases hsc : sepScan cs with
      | some r =>
        rw [hsc] at h
        cases h
        obtain ⟨w, hw, hws2, hnl⟩ := sepScan_structure hsc
        exact ⟨c :: w, by rw [hw]; rfl,
          fun d hd => by
            rcases List.mem_cons.mp hd with rfl | hd
            · exact hws
            · exact hws2 d hd, hnl⟩
      | none =>
        rw [hsc] at h
        by_cases hnl : c = '\n'
        · rw [if_pos hnl] at h
          cases h
          subst hnl
          exact ⟨[], rfl, by simp, sepScan_none_noNL hsc⟩
        · rw [if_neg hnl] at h
          cases h
    · rw [sepScan, if_neg hws] at h
      cases h

theorem sepScan_append : ∀ {l : List Char} (z : List Char),
    (∃ c ∈ l, pyIsSpace c = false) →
    sepScan (l ++ z) = (sepScan l).map (· ++ z)
  | [], _, h => by simp at h
  | c :: cs, z, h => by
    by_cases hws : pyIsSpace c = true
    · have h' : ∃ d ∈ cs, pyIsSpace d = false := by
        rcases h with ⟨d, hd, hdp⟩
        rcases List.mem_cons.mp hd with rfl | hd
        · rw [hws] at hdp; cases hdp
        · exact ⟨d, hd, hdp⟩
      rw [List.cons_append, sepScan, if_pos hws, sepScan_append z h']
      cases hsc : sepScan cs with
      | some r => rw [sepScan, if_pos hws, hsc]; rfl
      | none =>
        rw [sepScan, if_pos hws, hsc]
        by_cases hnl : c = '\n'
        · rw [if_pos hnl, if_pos hnl]; rfl
        · rw [if_neg hnl, if_neg hnl]; rfl
    · rw [List.cons_append, sepScan, if_neg hws, sepScan, if_neg hws]; rfl

theorem matchSep_cons_ne {c : Char} {cs : List Char} (h : ¬ c = '\n') :
    matchSep (c :: cs) = none := by
  rw [matchSep, if_neg h]

theorem matchSep_append {c : Char} {cs : List Char} (z : List Char)
    (h : ∃ d ∈ cs, pyIsSpace d = false) :
    matchSep (c :: cs ++ z) = (matchSep (c :: cs)).map (· ++ z) := by
  rw [List.cons_append, matchSep, matchSep]
  by_cases hc : c = '\n'
  · rw [if_pos hc, if_pos hc, sepScan_append z h]
  · rw [if_neg hc, if_neg hc]; rfl

theorem sepFreeB_cons {c : Char} {cs : List Char} (h : sepFreeB (c :: cs) = true) :
    matchSep (c :: cs) = none ∧ sepFreeB cs = true := by
  rw [sepFreeB, Bool.and_eq_true] at h
  exact ⟨Option.isNone_iff_eq_none.mp h.1, h.2⟩

theorem splitAux_sepFree : ∀ {l : List Char}, sepFreeB l = true →
    ∀ acc : List Char, splitAux l acc = [(acc.reverse ++ l).asString]
  | [], _, acc => by rw [splitAux_nil, List.append_nil]
  | c :: cs, h, acc => by
    obtain ⟨hm, ht⟩ := sepFreeB_cons h
    rw [splitAux_cons_none hm, splitAux_sepFree ht (c :: acc)]
    simp

theorem sepScan_cons_newline (v : List Char) :
    sepScan ('\n' :: v) = some (junctionRem v) := by
  rw [sepScan, if_pos (by decide : pyIsSpace '\n' = true)]
  cases hv : sepScan v with
  | some r => rw [junctionRem, hv]; rfl
  | none => rw [junctionRem, hv, if_pos rfl]; rfl

theorem junctionRem_head {v : List Char}
    (h : ∀ c, v.head? = some c → pyIsSpace c = false) : junctionRem v = v := by
  cases v with
  | nil => rfl
  | cons a t =>
    have ha := h a rfl
    rw [junctionRem, sepScan, if_neg (by simp [ha])]
    rfl

theorem matchSep_junction (v : List Char) :
    matchSep ('\n' :: '\n' :: v) = some (junctionRem v) := by
  rw [matchSep, if_pos rfl, sepScan_cons_newline]

theorem splitAux_emit : ∀ {H : List Char}, sepFreeB H = true →
    (∀ c, H.getLast? = some c → pyIsSpace c = false) →
    ∀ (acc v : List Char),
      splitAux (H ++ '\n' :: '\n' :: v) acc =
        (acc.reverse ++ H).asString :: splitAux (junctionRem v) []
  | [], _, _, acc, v => by
    rw [List.nil_append, splitAux_cons_some (matchSep_junction v), List.append_nil]
  | c :: H', hfree, hlast, acc, v => by
    obtain ⟨hm, ht⟩ := sepFreeB_cons hfree
    have hlast' : ∀ d, H'.getLast? = some d → pyIsSpace d = false := by
      intro d hd
      cases hH' : H' with
      | nil => rw [hH'] at hd; cases hd
      | cons b t =>
        apply hlast
        rw [← hd, hH', getLastTail (List.cons_ne_nil b t)]
    have hmm : matchSep (c :: (H' ++ '\n' :: '\n' :: v)) = none := by
      by_cases hc : c = '\n'
      · have hne : H' ≠ [] := by
          intro h0
          subst h0
          subst hc
          have := hlast '\n' rfl
          rw [show pyIsSpace '\n' = true from by decide] at this
          cases this
        obtain ⟨d, hd⟩ : ∃ d, H'.getLast? = some d := by
          cases hH' : H' with
          | nil => exact absurd hH' hne
          | cons b t => exact ⟨(b :: t).getLast (List.cons_ne_nil b t),
              List.getLast?_eq_getLast (b :: t) (List.cons_ne_nil b t)⟩
        have h2 : matchSep (c :: H' ++ '\n' :: '\n' :: v) =
            (matchSep (c :: H')).map (· ++ '\n' :: '\n' :: v) :=
          matchSep_append _ ⟨d, getLastMem hd, hlast' d hd⟩
        rw [List.cons_append] at h2
        rw [h2, hm]
        rfl
      · exact matchSep_cons_ne hc
    rw [List.cons_append, splitAux_cons_none hmm,
      splitAux_emit ht hlast' (c :: acc) v]
    simp

theorem matchSep_cross {u Q' rem : List Char} {q0 : Char}
    (hq : pyIsSpace q0 = false)
    (hm : matchSep (u ++ '\n' :: '\n' :: q0 :: Q') = some rem) :
    (∃ u', rem = u' ++ '\n' :: '\n' :: q0 :: Q') ∨ rem = q0 :: Q' := by
  cases u with
  | nil =>
    rw [List.nil_append, matchSep_junction,
      junctionRem_head (fun c hc => by cases hc; exact hq)] at hm
    cases hm
    exact Or.inr rfl
  | cons c u' =>
    rw [List.cons_append, matchSep] at hm
    by_cases hc : c = '\n'
    · rw [if_pos hc] at hm
      obtain ⟨w, hw, hwws, hrem⟩ := sepScan_structure hm
      rcases List.append_eq_append_iff.mp hw with ⟨t, hwt, hb⟩ | ⟨t, hut, hd⟩
      · have htws : ∀ x ∈ t, pyIsSpace x = true := by
          intro x hx
          exact hwws x (hwt ▸ List.mem_append_right u' hx)
        match t, hb with
        | [], hb =>
          rw [List.nil_append] at hb
          cases hb
          exfalso
          apply hrem
          rw [List.takeWhile_cons, if_pos (by decide : pyIsSpace '\n' = true)]
          exact List.mem_cons_self _ _
        | [a], hb =>
          rw [List.cons_append, List.nil_append] at hb
          injection hb with h1 h2
          injection h2 with h3 h4
          exact Or.inr h4.symm
        | a :: b :: t', hb =>
          rw [List.cons_append, List.cons_append] at hb
          injection hb with h1 h2
          injection h2 with h3 h4
          match t', h4 with
          | [], h4 =>
            rw [List.nil_append] at h4
            injection h4 with h5 h6
            rw [h5] at hq
            rw [show pyIsSpace '\n' = true from by decide] at hq
            cases hq
          | e :: t'', h4 =>
            injection h4 with h5 h6
            have : pyIsSpace q0 = true := by
              rw [h5]
              exact htws e (by
                apply List.mem_cons_of_mem
                apply List.mem_cons_of_mem
                exact List.mem_cons_self e t'')
            rw [this] at hq
            cases hq
      · match t, hd with
        | [], hd =>
          rw [List.nil_append] at hd
          cases hd
          exfalso
          apply hrem
          rw [List.takeWhile_cons, if_pos (by decide : pyIsSpace '\n' = true)]
          exact List.mem_cons_self _ _
        | e :: t'', hd =>
          injection hd with h5 h6
          exact Or.inl ⟨t'', h6⟩
    · rw [if_neg hc] at hm
      cases hm

theorem splitAux_mem_of_shape : ∀ (n : ℕ) {q0 : Char} {Q' : List Char}
    (hq : pyIsSpace q0 = false) {target : String}
    (hcont : target ∈ splitAux (q0 :: Q') []) {l : List Char} (u acc : List Char),
    l.length ≤ n → l = u ++ '\n' :: '\n' :: q0 :: Q' → target ∈ splitAux l acc
  | 0, q0, Q', _, _, _, l, u, acc, hlen, hshape => by
    subst hshape
    simp at hlen
  | n + 1, q0, Q', hq, target, hcont, l, u, acc, hlen, hshape => by
    subst hshape
    cases u with
    | nil =>
      rw [List.nil_append,
        splitAux_cons_some (by
          rw [matchSep_junction, junctionRem_head (fun c hc => by cases hc; exact hq)])]
      exact List.mem_cons_of_mem _ hcont
    | cons c u' =>
      rw [List.cons_append]
      cases hm : matchSep (c :: (u' ++ '\n' :: '\n' :: q0 :: Q')) with
      | none =>
        rw [splitAux_cons_none hm]
        apply splitAux_mem_of_shape n hq hcont u' (c :: acc) _ rfl
        have := hlen
        simp only [List.cons_append, List.length_cons] at this
        exact Nat.lt_succ_iff.mp (Nat.lt_succ_of_le (Nat.le_of_succ_le_succ this))
      | some rem =>
        rw [splitAux_cons_some hm]
        have hm' : matchSep ((c :: u') ++ '\n' :: '\n' :: q0 :: Q') = some rem := by
          rw [List.cons_append]
          exact hm
        have hlt : rem.length ≤ n := by
          have h1 := matchSep_length hm
          have h2 : (c :: (u' ++ '\n' :: '\n' :: q0 :: Q')).length ≤ n + 1 := by
            simpa using hlen
          exact Nat.lt_succ_iff.mp (Nat.lt_of_lt_of_le h1 h2)
        rcases matchSep_cross hq hm' with ⟨u'', hrem⟩ | hrem
        · exact List.mem_cons_of_mem _
            (splitAux_mem_of_shape n hq hcont u'' [] hlt hrem)
        · subst hrem
          exact List.mem_cons_of_mem _ hcont

theorem goodPara_spec {p : String} (h : goodPara p = true) :
    p.data ≠ [] ∧ (∀ c, p.data.head? = some c → pyIsSpace c = false) ∧
      (∀ c, p.data.getLast? = some c → pyIsSpace c = false) ∧
      sepFreeB p.data = true := by
  rw [goodPara, Bool.and_eq_true, Bool.and_eq_true, Bool.and_eq_true] at h
  obtain ⟨⟨⟨h1, h2⟩, h3⟩, h4⟩ := h
  refine ⟨by simpa using h1, ?_, ?_, h4⟩
  · intro c hc
    rw [hc] at h2
    simpa using h2
  · intro c hc
    rw [hc] at h3
    simpa using h3

theorem joinBlank_cons₂_data (p q : String) (ps : List String) :
    (joinBlank (p :: q :: ps)).data =
      p.data ++ '\n' :: '\n' :: (joinBlank (q :: ps)).data := by
  rw [joinBlank, String.data_append, String.data_append, List.append_assoc]
  rfl

theorem joinBlank_ne_nil : ∀ {q : String} {ps : List String},
    q.data ≠ [] → (joinBlank (q :: ps)).data ≠ []
  | q, [], hq => by rw [joinBlank]; exact hq
  | q, r :: ps, hq => by
    rw [joinBlank_cons₂_data]
    intro h
    exact hq (List.append_eq_nil.mp h).1

theorem head?_append_left {l z : List Char} {d : Char} (h : l.head? = some d) :
    (l ++ z).head? = some d := by
  cases l with
  | nil => cases h
  | cons a t => cases h; rfl

theorem joinBlank_head : ∀ {q : String} {ps : List String} {d : Char},
    q.data.head? = some d → (joinBlank (q :: ps)).data.head? = some d
  | q, [], d, h => by rw [joinBlank]; exact h
  | q, r :: ps, d, h => by
    rw [joinBlank_cons₂_data]
    exact head?_append_left h

theorem joinBlank_getLast : ∀ {ps : List String} {q : String} {d : Char},
    (∀ p ∈ ps, p.data ≠ []) →
    ((ps.getLastD q).data.getLast? = some d) → q.data ≠ [] →
    (joinBlank (q :: ps)).data.getLast? = some d
  | [], q, d, _, h, _ => by rw [joinBlank]; simpa using h
  | r :: ps, q, d, hne, h, hq => by
    rw [joinBlank_cons₂_data]
    have hr : r.data ≠ [] := hne r (List.mem_cons_self r ps)
    have hrec : (joinBlank (r :: ps)).data.getLast? = some d := by
      apply joinBlank_getLast (fun p hp => hne p (List.mem_cons_of_mem r hp)) _ hr
      rw [List.getLastD_cons] at h
      exact h
    rw [List.getLast?_append_of_ne_nil q.data (by simp),
      getLastTail (by simp), getLastTail (joinBlank_ne_nil hr)]
    exact hrec

theorem splitAux_joinBlank : ∀ {ps : List String}, ps ≠ [] →
    (∀ p ∈ ps, goodPara p = true) → splitAux (joinBlank ps).data [] = ps
  | [], h, _ => absurd rfl h
  | [p], _, hg => by
    rw [joinBlank]
    obtain ⟨_, _, _, hfree⟩ := goodPara_spec (hg p (List.mem_singleton_self p))
    rw [splitAux_sepFree hfree []]
    rw [List.reverse_nil, List.nil_append]
    exact congrArg (fun s => [s]) (String.asString_toList p)
  | p :: q :: ps, _, hg => by
    obtain ⟨hne, hhead, hlast, hfree⟩ := goodPara_spec (hg p (List.mem_cons_self p _))
    obtain ⟨hneq, hheadq, _, _⟩ := goodPara_spec (hg q (by simp))
    rw [joinBlank_cons₂_data, splitAux_emit hfree hlast [] _]
    have hjhead : ∀ c, (joinBlank (q :: ps)).data.head? = some c →
        pyIsSpace c = false := by
      intro c hc
      cases hq : q.data with
      | nil => exact absurd hq hneq
      | cons a t =>
        have : (joinBlank (q :: ps)).data.head? = some a :=
          joinBlank_head (by rw [hq]; rfl)
        rw [this] at hc
        injection hc with hac
        rw [← hac]
        exact hheadq a (by rw [hq]; rfl)
    rw [junctionRem_head hjhead,
      splitAux_joinBlank (List.cons_ne_nil q ps)
        (fun r hr => hg r (List.mem_cons_of_mem p hr))]
    rw [List.reverse_nil, List.nil_append]
    exact congrArg (fun s => s :: q :: ps) (String.asString_toList p)

theorem pyStrip_joinBlank {ps : List String} (hne : ps ≠ [])
    (hg : ∀ p ∈ ps, goodPara p = true) :
    pyStrip (joinBlank ps).data = (joinBlank ps).data := by
  match ps, hne with
  | p :: ps', _ =>
    have hlastd : ps'.getLastD p ∈ p :: ps' := List.getLastD_mem_cons ps' p
    obtain ⟨hneL, _, hlastL, _⟩ := goodPara_spec (hg _ hlastd)
    obtain ⟨hnep, hheadp, _, _⟩ := goodPara_spec (hg p (List.mem_cons_self p _))
    obtain ⟨d, hd⟩ : ∃ d, (ps'.getLastD p).data.getLast? = some d := by
      cases hL : (ps'.getLastD p).data with
      | nil => exact absurd hL hneL
      | cons a t => exact ⟨(a :: t).getLast (List.cons_ne_nil a t),
          List.getLast?_eq_getLast (a :: t) (List.cons_ne_nil a t)⟩
    obtain ⟨e, he⟩ : ∃ e, p.data.head? = some e := by
      cases hp : p.data with
      | nil => exact absurd hp hnep
      | cons a t => exact ⟨a, rfl⟩
    have hjl : (joinBlank (p :: ps')).data.getLast? = some d :=
      joinBlank_getLast
        (fun r hr => (goodPara_spec (hg r (List.mem_cons_of_mem p hr))).1) hd hnep
    have hjh : (joinBlank (p :: ps')).data.head? = some e := joinBlank_head he
    rw [pyStrip_eq, rdropWs_of_getLast hjl (hlastL d hd),
      dropWs_of_head hjh (hheadp e he)]

theorem loadFiles_data : ∀ (l : List (String × String)) (s : String),
    (l.foldl (fun corpus p => corpus ++ sourceHeader p.1 ++ p.2) s).data =
      s.data ++ (l.map (fun p => (sourceHeader p.1).data ++ p.2.data)).flatten
  | [], s => by simp
  | x :: l, s => by
    rw [List.foldl_cons, loadFiles_data l, List.map_cons, List.flatten_cons]
    simp [String.data_append, List.append_assoc]

theorem sourceBlock_eq (f c : String) :
    (sourceHeader f).data ++ c.data =
      '\n' :: '\n' :: (("# Source: " ++ f).data ++ '\n' :: '\n' :: c.data) := by
  simp only [sourceHeader, String.data_append, List.append_assoc]
  rfl

theorem hdr_cons (f : String) :
    ("# Source: " ++ f).data = '#' :: (" Source: " ++ f).data := by
  rw [String.data_append, String.data_append]
  rfl

theorem hdr_noNL {f : String} (h : '\n' ∉ f.data) :
    '\n' ∉ ("# Source: " ++ f).data := by
  rw [String.data_append]
  intro hm
  rcases List.mem_append.mp hm with hm | hm
  · revert hm; decide
  · exact h hm

theorem sepFreeB_of_noNL : ∀ {l : List Char}, '\n' ∉ l → sepFreeB l = true
  | [], _ => rfl
  | c :: cs, h => by
    have hc : ¬ c = '\n' := fun he => h (he ▸ List.mem_cons_self c cs)
    rw [sepFreeB, matchSep_cons_ne hc]
    simpa using sepFreeB_of_noNL fun hm => h (List.mem_cons_of_mem c hm)

theorem hdr_getLast {f : String}
    (h : List.isSuffixOf ['.', 'm', 'd'] f.data = true) :
    ("# Source: " ++ f).data.getLast? = some 'd' := by
  obtain ⟨t, ht⟩ := List.isSuffixOf_iff_suffix.mp h
  rw [String.data_append, ← ht]
  rw [show ('.' :: 'm' :: 'd' :: [] : List Char) = ['.', 'm'] ++ ['d'] from rfl]
  rw [← List.append_assoc, ← List.append_assoc]
  exact List.getLast?_concat _

theorem mdFiles_mem {dir : List (String × String)} {f c : String}
    (hmem : (f, c) ∈ dir) (hmd : List.isSuffixOf ['.', 'm', 'd'] f.data = true) :
    (f, c) ∈ mdFiles dir := by
  rw [mdFiles, List.mem_insertionSort, List.mem_filter]
  exact ⟨hmem, hmd⟩

theorem hash_mem_sourceHeader (f : String) : '#' ∈ (sourceHeader f).data := by
  rw [sourceHeader, String.data_append, String.data_append]
  apply List.mem_append_left
  apply List.mem_append_left
  decide

theorem dropWs_nn_hash (t : List Char) :
    dropWs ('\n' :: '\n' :: '#' :: t) = '#' :: t := by
  rw [dropWs, List.dropWhile_cons, if_pos (by decide), List.dropWhile_cons,
    if_pos (by decide), List.dropWhile_cons, if_neg (by decide)]

theorem splitAux_mem_explicit (q0 : Char) (Q' : List Char) (target : String)
    (hq : pyIsSpace q0 = false) (hcont : target ∈ splitAux (q0 :: Q') [])
    (u : List Char) :
    target ∈ splitAux (u ++ '\n' :: '\n' :: q0 :: Q') [] :=
  splitAux_mem_of_shape (u ++ '\n' :: '\n' :: q0 :: Q').length hq hcont u []
    le_rfl rfl

theorem header_chunk_mem {dir : List (String × String)} {f c : String}
    (hmem : (f, c) ∈ dir) (hmd : List.isSuffixOf ['.', 'm', 'd'] f.data = true)
    (hnl : '\n' ∉ f.data) :
    ("# Source: " ++ f) ∈ buildKB dir := by
  obtain ⟨l₁, l₂, hsplit⟩ := List.append_of_mem (mdFiles_mem hmem hmd)
  have hcd : (loadFiles dir).data =
      (l₁.map (fun p => (sourceHeader p.1).data ++ p.2.data)).flatten ++
        '\n' :: '\n' :: (("# Source: " ++ f).data ++ '\n' :: '\n' ::
          (c.data ++
            (l₂.map (fun p => (sourceHeader p.1).data ++ p.2.data)).flatten)) := by
    rw [loadFiles, loadFiles_data, hsplit, List.map_append, List.map_cons,
      List.flatten_append, List.flatten_cons, sourceBlock_eq]
    simp [List.append_assoc]
  have hHfree : sepFreeB ("# Source: " ++ f).data = true :=
    sepFreeB_of_noNL (hdr_noNL hnl)
  have hHlast : ∀ d, ("# Source: " ++ f).data.getLast? = some d →
      pyIsSpace d = false := by
    intro d hd
    rw [hdr_getLast hmd] at hd
    injection hd with hd
    rw [← hd]
    decide
  have hHne : ("# Source: " ++ f).data ≠ [] := by
    rw [hdr_cons]
    exact List.cons_ne_nil _ _
  have hcontFree : ("# Source: " ++ f).data.asString ∈
      splitAux ('#' :: (" Source: " ++ f).data) [] := by
    rw [← hdr_cons, splitAux_sepFree hHfree []]
    simp
  have hmemChunk : ("# Source: " ++ f).data.asString ∈ chunker (loadFiles dir) := by
    rw [chunker, pyStrip_eq]
    by_cases hB : ∀ x ∈ c.data ++
        (l₂.map (fun p => (sourceHeader p.1).data ++ p.2.data)).flatten,
        pyIsSpace x = true
    · have hr : rdropWs (loadFiles dir).data =
          ((l₁.map (fun p => (sourceHeader p.1).data ++ p.2.data)).flatten ++
            ['\n', '\n']) ++ ("# Source: " ++ f).data := by
        rw [hcd]
        rw [show (l₁.map (fun p => (sourceHeader p.1).data ++ p.2.data)).flatten ++
            '\n' :: '\n' :: (("# Source: " ++ f).data ++ '\n' :: '\n' ::
              (c.data ++
                (l₂.map (fun p => (sourceHeader p.1).data ++ p.2.data)).flatten)) =
            (((l₁.map (fun p => (sourceHeader p.1).data ++ p.2.data)).flatten ++
              ['\n', '\n']) ++ ("# Source: " ++ f).data) ++
              ('\n' :: '\n' ::
                (c.data ++
                  (l₂.map (fun p =>
                    (sourceHeader p.1).data ++ p.2.data)).flatten)) from by
          simp [List.append_assoc]]
        rw [rdropWs_append_allws _ (by
          intro x hx
          rcases List.mem_cons.mp hx with rfl | hx
          · decide
          · rcases List.mem_cons.mp hx with rfl | hx
            · decide
            · exact hB x hx)]
        apply rdropWs_of_getLast
          (List.getLast?_append_of_ne_nil _ hHne ▸ hdr_getLast hmd)
        decide
      rw [hr]
      cases l₁ with
      | nil =>
        simp only [List.map_nil, List.flatten_nil, List.nil_append]
        rw [show (['\n', '\n'] : List Char) ++ ("# Source: " ++ f).data =
            '\n' :: '\n' :: '#' :: (" Source: " ++ f).data from by
          rw [hdr_cons]; simp]
        rw [dropWs_nn_hash]
        exact hcontFree
      | cons p l₁' =>
        have hAnon : ∃ d ∈ (((p :: l₁').map
            (fun p => (sourceHeader p.1).data ++ p.2.data)).flatten),
            pyIsSpace d = false := by
          refine ⟨'#', ?_, by decide⟩
          rw [List.map_cons, List.flatten_cons]
          exact List.mem_append_left _
            (List.mem_append_left _ (hash_mem_sourceHeader p.1))
        rw [List.append_assoc, dropWs, dropWhile_append_stop _ hAnon]
        rw [show (['\n', '\n'] : List Char) ++ ("# Source: " ++ f).data =
            '\n' :: '\n' :: '#' :: (" Source: " ++ f).data from by
          rw [hdr_cons]; simp]
        exact splitAux_mem_explicit '#' (" Source: " ++ f).data _
          (by decide) hcontFree _
    · push_neg at hB
      obtain ⟨x, hx, hxws⟩ := hB
      have hxf : pyIsSpace x = false := by
        cases hxv : pyIsSpace x with
        | true => exact absurd hxv hxws
        | false => rfl
      have hcontEmit : ("# Source: " ++ f).data.asString ∈
        splitAux ('#' :: ((" Source: " ++ f).data ++ '\n' :: '\n' ::
          rdropWs (c.data ++
            (l₂.map (fun p => (sourceHeader p.1).data ++ p.2.data)).flatten))) [] := by
        rw [show ('#' :: ((" Source: " ++ f).data ++ '\n' :: '\n' ::
            rdropWs (c.data ++
              (l₂.map (fun p => (sourceHeader p.1).data ++ p.2.data)).flatten))) =
            ("# Source: " ++ f).data ++ '\n' :: '\n' ::
              rdropWs (c.data ++
                (l₂.map (fun p => (sourceHeader p.1).data ++ p.2.data)).flatten)
          from by rw [hdr_cons]; simp]
        rw [splitAux_emit hHfree hHlast []]
        simp
      have hr : rdropWs (loadFiles dir).data =
          ((l₁.map (fun p => (sourceHeader p.1).data ++ p.2.data)).flatten ++
            '\n' :: '\n' :: (("# Source: " ++ f).data ++ ['\n', '\n'])) ++
            rdropWs (c.data ++
              (l₂.map (fun p => (sourceHeader p.1).data ++ p.2.data)).flatten) := by
        rw [hcd]
        rw [show (l₁.map (fun p => (sourceHeader p.1).data ++ p.2.data)).flatten ++
            '\n' :: '\n' :: (("# Source: " ++ f).data ++ '\n' :: '\n' ::
              (c.data ++
                (l₂.map (fun p => (sourceHeader p.1).data ++ p.2.data)).flatten)) =
            (((l₁.map (fun p => (sourceHeader p.1).data ++ p.2.data)).flatten ++
              '\n' :: '\n' :: (("# Source: " ++ f).data ++ ['\n', '\n']))) ++
              (c.data ++
                (l₂.map (fun p => (sourceHeader p.1).data ++ p.2.data)).flatten)
          from by simp [List.append_assoc]]
        rw [rdropWs_append_nonws _ ⟨x, hx, hxf⟩]
      rw [hr]
      cases l₁ with
      | nil =>
        simp only [List.map_nil, List.flatten_nil, List.nil_append]
        rw [show ('\n' :: '\n' :: (("# Source: " ++ f).data ++ ['\n', '\n'])) ++
            rdropWs (c.data ++
              (l₂.map (fun p => (sourceHeader p.1).data ++ p.2.data)).flatten) =
            '\n' :: '\n' :: '#' :: ((" Source: " ++ f).data ++ '\n' :: '\n' ::
              rdropWs (c.data ++
                (l₂.map (fun p => (sourceHeader p.1).data ++ p.2.data)).flatten))
          from by rw [hdr_cons]; simp [List.append_assoc]]
        rw [dropWs_nn_hash]
        exact hcontEmit
      | cons p l₁' =>
        have hAnon : ∃ d ∈ (((p :: l₁').map
            (fun p => (sourceHeader p.1).data ++ p.2.data)).flatten),
            pyIsSpace d = false := by
          refine ⟨'#', ?_, by decide⟩
          rw [List.map_cons, List.flatten_cons]
          exact List.mem_append_left _
            (List.mem_append_left _ (hash_mem_sourceHeader p.1))
        rw [List.append_assoc, dropWs, dropWhile_append_stop _ hAnon]
        rw [show ('\n' :: '\n' :: (("# Source: " ++ f).data ++ ['\n', '\n'])) ++
            rdropWs (c.data ++
              (l₂.map (fun p => (sourceHeader p.1).data ++ p.2.data)).flatten) =
            '\n' :: '\n' :: '#' :: ((" Source: " ++ f).data ++ '\n' :: '\n' ::
              rdropWs (c.data ++
                (l₂.map (fun p => (sourceHeader p.1).data ++ p.2.data)).flatten))
          from by rw [hdr_cons]; simp [List.append_assoc]]
        exact splitAux_mem_explicit '#'
          ((" Source: " ++ f).data ++ '\n' :: '\n' ::
            rdropWs (c.data ++
              (l₂.map (fun p => (sourceHeader p.1).data ++ p.2.data)).flatten)) _
          (by decide) hcontEmit _
  have hconv : ("# Source: " ++ f).data.asString = "# Source: " ++ f :=
    String.asString_toList _
  rw [hconv] at hmemChunk
  exact hmemChunk

theorem search_sorted_le (index : List (List ℚ)) (q : List ℚ) (k : ℕ) :
    List.Pairwise (fun a b : ℕ × ℚ => a.2 ≤ b.2) (search index q k) := by
  apply List.Pairwise.sublist (List.take_sublist k _)
  apply List.Pairwise.imp ?_
    (List.sorted_insertionSort distLe (scored index q))
  intro a b hab
  rcases hab with h | ⟨h, _⟩
  · exact le_of_lt h
  · exact le_of_eq h

theorem search_length (index : List (List ℚ)) (q : List ℚ) (k : ℕ) :
    (search index q k).length = min k index.length := by
  rw [search, List.length_take,
    (List.perm_insertionSort distLe (scored index q)).length_eq, scored,
    List.length_map, List.length_range]

theorem foldl_append_data : ∀ (l : List String) (s : String),
    (l.foldl (· ++ ·) s).data = s.data ++ (l.map String.data).flatten
  | [], s => by simp
  | x :: l, s => by
    rw [List.foldl_cons, foldl_append_data l, List.map_cons, List.flatten_cons,
      String.data_append, List.append_assoc]

theorem join_data (l : List String) :
    (String.join l).data = (l.map String.data).flatten := by
  rw [String.join, foldl_append_data]
  rfl

/-- C1: for every constructed KnowledgeBase, query string, and k > 0,
`retrieve` encodes the query into a single vector, searches the index for the
k nearest chunks, and returns the chunk texts joined by a blank line in
ascending distance order, with every zero-width-space (U+200B) and
byte-order-mark (U+FEFF) character stripped from the result. -/
theorem retrieve_contract (kb : KnowledgeBase) (query : String) (k : ℕ)
    (hk : 0 < k) :
    retrieve kb query k =
      removeChar '\uFEFF' (removeChar '\u200B'
        (joinBlank ((search kb.index (kb.encode query) k).map
          (fun p => kb.chunks.getD p.1 "")))) ∧
    List.Pairwise (fun a b : ℕ × ℚ => a.2 ≤ b.2)
      (search kb.index (kb.encode query) k) ∧
    ∀ ch ∈ (retrieve kb query k).data, ch ≠ '\u200B' ∧ ch ≠ '\uFEFF' := by
  refine ⟨rfl, search_sorted_le _ _ _, ?_⟩
  intro ch hch
  have hch' : ch ∈ ((removeChar '\u200B'
      (joinBlank (retrievedTexts kb query k))).data).filter
      (fun d => d != '\uFEFF') := hch
  have h1 := List.mem_filter.mp hch'
  have h2 := List.mem_filter.mp h1.1
  constructor
  · exact bne_iff_ne.mp h2.2
  · exact bne_iff_ne.mp h1.2

theorem retrieve_contract_witness :
    0 < 1 ∧
    (retrieve kbWitness "q" 1 =
      removeChar '\uFEFF' (removeChar '\u200B'
        (joinBlank ((search kbWitness.index (kbWitness.encode "q") 1).map
          (fun p => kbWitness.chunks.getD p.1 "")))) ∧
    List.Pairwise (fun a b : ℕ × ℚ => a.2 ≤ b.2)
      (search kbWitness.index (kbWitness.encode "q") 1) ∧
    ∀ ch ∈ (retrieve kbWitness "q" 1).data, ch ≠ '\u200B' ∧ ch ≠ '\uFEFF') :=
  ⟨Nat.one_pos, retrieve_contract kbWitness "q" 1 Nat.one_pos⟩

/-- C2: the nearest-neighbor search over N stored vectors returns exactly
`min k N` results sorted by non-decreasing squared L2 distance; consequently
`retrieve` never assembles more than `min k N` chunk texts. -/
theorem search_bounded :
    (∀ (index : List (List ℚ)) (q : List ℚ) (k : ℕ),
      (search index q k).length = min k index.length ∧
      List.Pairwise (fun a b : ℕ × ℚ => a.2 ≤ b.2) (search index q k)) ∧
    ∀ (kb : KnowledgeBase) (query : String) (k : ℕ),
      (retrievedTexts kb query k).length ≤ min k kb.index.length := by
  refine ⟨fun index q k => ⟨search_length index q k, search_sorted_le index q k⟩,
    fun kb query k => ?_⟩
  rw [retrievedTexts, List.length_map, search_length]

/-- C3 (counterexample): for the location with zero eligible documents the
observed construction does not fail; it silently builds the degenerate
knowledge base whose chunk list is a single empty string. -/
theorem buildKB_empty_degenerate : buildKB [] = [""] := by decide

/-- C3 (amended): for every knowledge-base location containing zero eligible
documents, construction succeeds and produces the degenerate single
empty-string chunk list (no `EmptyKnowledgeBaseError` exists in the code). -/
theorem buildKB_no_eligible (dir : List (String × String))
    (h : dir.filter (fun p => List.isSuffixOf ['.', 'm', 'd'] p.1.data) = []) :
    buildKB dir = [""] := by
  rw [buildKB, loadFiles, mdFiles, h]
  rfl

theorem buildKB_no_eligible_witness :
    ([("a.txt", "x")].filter
      (fun p => List.isSuffixOf ['.', 'm', 'd'] p.1.data) = []) ∧
    buildKB [("a.txt", "x")] = [""] :=
  ⟨by decide, buildKB_no_eligible [("a.txt", "x")] (by decide)⟩

/-- C4: a corpus of N blank-line-separated paragraphs is chunked into exactly
those N non-empty paragraphs in order, and a corpus with no blank-line break
yields exactly one chunk: the whole trimmed corpus. -/
theorem chunker_paragraphs :
    (∀ ps : List String, ps ≠ [] → (∀ p ∈ ps, goodPara p = true) →
      chunker (joinBlank ps) = ps ∧
      (chunker (joinBlank ps)).length = ps.length ∧
      ∀ s ∈ chunker (joinBlank ps), s ≠ "") ∧
    ∀ corpus : String, sepFreeB (pyStrip corpus.data) = true →
      chunker corpus = [(pyStrip corpus.data).asString] := by
  constructor
  · intro ps hne hg
    have hmain : chunker (joinBlank ps) = ps := by
      rw [chunker, pyStrip_joinBlank hne hg, splitAux_joinBlank hne hg]
    refine ⟨hmain, by rw [hmain], ?_⟩
    intro s hs
    rw [hmain] at hs
    obtain ⟨hsne, _, _, _⟩ := goodPara_spec (hg s hs)
    intro hempty
    rw [hempty] at hsne
    exact hsne rfl
  · intro corpus hfree
    rw [chunker, splitAux_sepFree hfree []]
    simp

theorem chunker_paragraphs_witness :
    chunker (joinBlank ["a", "b"]) = ["a", "b"] ∧
    chunker " x" = [(pyStrip " x".data).asString] :=
  ⟨(chunker_paragraphs.1 ["a", "b"] (by decide) (by decide)).1,
    chunker_paragraphs.2 " x" (by decide)⟩

/-- C5: construction loads exactly the documents with the `.md` extension,
in ascending filename order, concatenating them with a provenance header
naming the source file before each document's content. -/
theorem loadFiles_provenance :
    ∀ dir : List (String × String),
      (mdFiles dir).Perm
        (dir.filter (fun p => List.isSuffixOf ['.', 'm', 'd'] p.1.data)) ∧
      List.Pairwise fileLe (mdFiles dir) ∧
      loadFiles dir =
        String.join ((mdFiles dir).map (fun p => sourceHeader p.1 ++ p.2)) := by
  intro dir
  refine ⟨List.perm_insertionSort fileLe _, List.sorted_insertionSort fileLe _, ?_⟩
  apply String.toList_inj.mp
  show (loadFiles dir).data =
    (String.join ((mdFiles dir).map (fun p => sourceHeader p.1 ++ p.2))).data
  rw [loadFiles, loadFiles_data, join_data, List.map_map]
  rw [List.nil_append]
  apply congrArg List.flatten
  apply List.map_congr_left
  intro p _
  show (sourceHeader p.1).data ++ p.2.data = (sourceHeader p.1 ++ p.2).data
  rw [String.data_append]

/-- C6: a second `get_kb` for the same location returns the cached
KnowledgeBase without rebuilding (construction count one then zero), and a
`get_kb` call leaves every other location's cache entry unchanged. -/
theorem get_kb_cached {α : Type} (build : String → α)
    (cache : List (String × α)) (loc : String)
    (hfresh : cache.lookup loc = none) :
    (get_kb build cache loc).2.2 = 1 ∧
    (get_kb build (get_kb build cache loc).2.1 loc).1 =
      (get_kb build cache loc).1 ∧
    (get_kb build (get_kb build cache loc).2.1 loc).2.1 =
      (get_kb build cache loc).2.1 ∧
    (get_kb build (get_kb build cache loc).2.1 loc).2.2 = 0 ∧
    ∀ loc' : String, loc' ≠ loc →
      (get_kb build cache loc).2.1.lookup loc' = cache.lookup loc' := by
  have h1 : get_kb build cache loc = (build loc, (loc, build loc) :: cache, 1) := by
    rw [get_kb, hfresh]
  have h2 : ((loc, build loc) :: cache).lookup loc = some (build loc) := by
    simp [List.lookup]
  have h3 : get_kb build ((loc, build loc) :: cache) loc =
      (build loc, (loc, build loc) :: cache, 0) := by
    rw [get_kb, h2]
  rw [h1]
  refine ⟨rfl, by rw [h3], by rw [h3], by rw [h3], ?_⟩
  intro loc' hne
  show ((loc, build loc) :: cache).lookup loc' = cache.lookup loc'
  rw [List.lookup]
  rw [show (loc' == loc) = false from beq_eq_false_iff_ne.mpr hne]

theorem get_kb_cached_witness :
    (([] : List (String × ℕ)).lookup "a" = none) ∧
    ((get_kb (fun _ => 7) [] "a").2.2 = 1 ∧
    (get_kb (fun _ => 7) (get_kb (fun _ => 7) ([] : List (String × ℕ)) "a").2.1
      "a").1 = (get_kb (fun _ => 7) [] "a").1 ∧
    (get_kb (fun _ => 7) (get_kb (fun _ => 7) ([] : List (String × ℕ)) "a").2.1
      "a").2.1 = (get_kb (fun _ => 7) [] "a").2.1 ∧
    (get_kb (fun _ => 7) (get_kb (fun _ => 7) ([] : List (String × ℕ)) "a").2.1
      "a").2.2 = 0 ∧
    ∀ loc' : String, loc' ≠ "a" →
      (get_kb (fun _ => 7) ([] : List (String × ℕ)) "a").2.1.lookup loc' =
        ([] : List (String × ℕ)).lookup loc') :=
  ⟨rfl, get_kb_cached (fun _ => 7) [] "a" rfl⟩

/-- C7: when construction fails, the registry returns the error, caches
nothing for that location, and a later `get` for the same location attempts
construction again. -/
theorem get_kbE_failure {ε α : Type} (build : String → Except ε α)
    (cache : List (String × α)) (loc : String) (e : ε)
    (hfresh : cache.lookup loc = none) (herr : build loc = Except.error e) :
    get_kbE build cache loc = (Except.error e, cache, 1) ∧
    (get_kbE build (get_kbE build cache loc).2.1 loc).2.2 = 1 := by
  have h1 : get_kbE build cache loc = (Except.error e, cache, 1) := by
    rw [get_kbE, hfresh, herr]
  refine ⟨h1, ?_⟩
  rw [h1, h1]

theorem get_kbE_failure_witness :
    (([] : List (String × ℕ)).lookup "a" = none ∧
      (fun _ : String => (Except.error "boom" : Except String ℕ)) "a" =
        Except.error "boom") ∧
    (get_kbE (fun _ => Except.error "boom") ([] : List (String × ℕ)) "a" =
      (Except.error "boom", [], 1) ∧
    (get_kbE (fun _ => Except.error "boom")
      (get_kbE (fun _ => Except.error "boom")
        ([] : List (String × ℕ)) "a").2.1 "a").2.2 = 1) :=
  ⟨⟨rfl, rfl⟩, get_kbE_failure (fun _ => Except.error "boom") [] "a" "boom" rfl rfl⟩

/-- C8: `retrieve` is deterministic: two knowledge bases with the same chunk
list and index whose embedders agree on the query produce identical output
for identical `(query, k)` inputs. -/
theorem retrieve_deterministic (kb1 kb2 : KnowledgeBase) (query : String)
    (k : ℕ) (hc : kb1.chunks = kb2.chunks) (hi : kb1.index = kb2.index)
    (he : kb1.encode query = kb2.encode query) :
    retrieve kb1 query k = retrieve kb2 query k := by
  rw [retrieve, retrieve, retrievedTexts, retrievedTexts, hc, hi, he]

theorem retrieve_deterministic_witness :
    (kbWitness.chunks = kbWitness2.chunks ∧ kbWitness.index = kbWitness2.index ∧
      kbWitness.encode "q" = kbWitness2.encode "q") ∧
    retrieve kbWitness "q" 2 = retrieve kbWitness2 "q" 2 :=
  ⟨⟨rfl, rfl, by decide⟩,
    retrieve_deterministic kbWitness kbWitness2 "q" 2 rfl rfl (by decide)⟩

/-- C9: `retrieve` with `k = 0` returns the empty string for every knowledge
base and query. -/
theorem retrieve_k_zero (kb : KnowledgeBase) (query : String) :
    retrieve kb query 0 = "" := rfl

/-- C10: in every knowledge-base directory, each eligible document with a
newline-free filename contributes its provenance header `"# Source: <file>"`
as a standalone chunk of the built knowledge base, because the header is
followed by a blank line; hence no content chunk carries the header. -/
theorem provenance_header_standalone (dir : List (String × String))
    (f c : String) (hmem : (f, c) ∈ dir)
    (hmd : List.isSuffixOf ['.', 'm', 'd'] f.data = true)
    (hnl : '\n' ∉ f.data) :
    ("# Source: " ++ f) ∈ buildKB dir :=
  header_chunk_mem hmem hmd hnl

theorem provenance_header_standalone_witness :
    (("a.md", "hello") ∈ [("a.md", "hello")] ∧
      List.isSuffixOf ['.', 'm', 'd'] "a.md".data = true ∧
      '\n' ∉ "a.md".data) ∧
    ("# Source: " ++ "a.md") ∈ buildKB [("a.md", "hello")] :=
  ⟨⟨by decide, by decide, by decide⟩,
    provenance_header_standalone [("a.md", "hello")] "a.md" "hello"
      (by decide) (by decide) (by decide)⟩
